import Mathlib

set_option maxRecDepth 1000000

/-!
Verification of the Fedaykin theme generator (`generate_theme.py`).

Strings are modelled as `List Char`.  Parsed JSON documents are modelled by
the inductive type `Json`; Python dicts become association lists that keep
insertion order, exactly as CPython dicts do.  File I/O is abstracted: the
functions that read a file in the source take the file's text here, and the
on-disk theme collection is a value of type `Option Json` (`none` = absent).
-/

/-- Shorthand turning a Lean string literal into the `List Char` representation
used throughout this development. -/
def S (s : String) : List Char := s.toList

/-- ASCII whitespace as recognised by Python's `str.rstrip`, `str.strip` and
the regex class `\s` (the model restricts attention to ASCII inputs). -/
def isPySpace (c : Char) : Bool :=
  c = ' ' || c = '\t' || c = '\n' || c = '\r' || c = '\x0b' || c = '\x0c'

/-- Python `str.rstrip`: drop trailing whitespace. -/
def pyRstrip (l : List Char) : List Char :=
  (l.reverse.dropWhile isPySpace).reverse

/-- Hexadecimal digit (used to state "valid hex colour"). -/
def isHexDigitChar (c : Char) : Bool :=
  c.isDigit || ('a' ≤ c && c ≤ 'f') || ('A' ≤ c && c ≤ 'F')

/-- Parsed JSON values, as produced by `json.loads`.  Numbers are modelled as
integers only: every numeral appearing in this development is an integer, and
the parser below rejects fractions/exponents rather than mis-parse them. -/
inductive Json where
  | null
  | bool (b : Bool)
  | num (n : Int)
  | str (s : List Char)
  | arr (xs : List Json)
  | obj (fields : List (List Char × Json))

mutual

/-- Structural (Python `==`) equality test on JSON values. -/
def Json.beq : Json → Json → Bool
  | .null, .null => true
  | .bool a, .bool b => a = b
  | .num a, .num b => a = b
  | .str a, .str b => a = b
  | .arr a, .arr b => Json.beqList a b
  | .obj a, .obj b => Json.beqFields a b
  | _, _ => false

/-- Elementwise equality test on JSON arrays. -/
def Json.beqList : List Json → List Json → Bool
  | [], [] => true
  | a :: as_, b :: bs => Json.beq a b && Json.beqList as_ bs
  | _, _ => false

/-- Bindingwise equality test on JSON objects. -/
def Json.beqFields : List (List Char × Json) → List (List Char × Json) → Bool
  | [], [] => true
  | (k1, v1) :: as_, (k2, v2) :: bs => k1 = k2 && Json.beq v1 v2 && Json.beqFields as_ bs
  | _, _ => false

end

theorem Json.beq_iff_eq : ∀ a b : Json, Json.beq a b = true ↔ a = b := by
  apply Json.beq.induct (fun a b => Json.beq a b = true ↔ a = b)
      (fun a b => Json.beqFields a b = true ↔ a = b)
      (fun a b => Json.beqList a b = true ↔ a = b) <;>
    intros <;> try simp_all [Json.beq, Json.beqList, Json.beqFields]
  all_goals first
    | (rename_i t x h1 h2 h3 h4 h5 h6; cases t <;> cases x <;> first
        | exact (h1 rfl rfl).elim
        | exact (h2 _ _ rfl rfl).elim
        | exact (h3 _ _ rfl rfl).elim
        | exact (h4 _ _ rfl rfl).elim
        | exact (h5 _ _ rfl rfl).elim
        | exact (h6 _ _ rfl rfl).elim
        | simp [Json.beq])
    | (rename_i t x h1 h2; cases t <;> cases x <;> first
        | exact (h1 rfl rfl).elim
        | exact (h2 _ _ _ _ rfl rfl).elim
        | exact (h2 _ _ _ _ _ _ rfl rfl).elim
        | simp [Json.beqList, Json.beqFields])

instance : DecidableEq Json :=
  fun a b => decidable_of_iff (Json.beq a b = true) (Json.beq_iff_eq a b)

/-- First binding of key `k` in an association list (Python `d[k]` / `d.get(k)`). -/
def dictGet {α β : Type} [DecidableEq α] : List (α × β) → α → Option β
  | [], _ => none
  | (k', v') :: rest, k => if k' = k then some v' else dictGet rest k

/-- Python `d[k] = v` on an insertion-ordered dict: replace the first binding
of `k` keeping its position, else append a new binding at the end. -/
def dictSet {α β : Type} [DecidableEq α] : List (α × β) → α → β → List (α × β)
  | [], k, v => [(k, v)]
  | (k', v') :: rest, k, v =>
    if k' = k then (k, v) :: rest else (k', v') :: dictSet rest k v

/-- Python `k in d`. -/
def dictHas {α β : Type} [DecidableEq α] (l : List (α × β)) (k : α) : Bool :=
  (dictGet l k).isSome

/-- Subscript lookup `j[k]` on a JSON object (`none` models KeyError/TypeError). -/
def jget (j : Json) (k : List Char) : Option Json :=
  match j with
  | .obj fs => dictGet fs k
  | _ => none

/-- Subscript assignment `j[k] = v` on a JSON object. -/
def jset (j : Json) (k : List Char) (v : Json) : Json :=
  match j with
  | .obj fs => .obj (dictSet fs k v)
  | _ => j

/-- Whitespace accepted between tokens by the JSON grammar. -/
def isJsonWs (c : Char) : Bool :=
  c = ' ' || c = '\t' || c = '\n' || c = '\r'

/-- Skip inter-token whitespace. -/
def skipWs (l : List Char) : List Char :=
  l.dropWhile isJsonWs

/-- Body of a JSON string literal, after the opening quote: returns the decoded
characters and the remaining input after the closing quote.  Strict: raw
control characters are rejected (as `json.loads` does by default) and only the
single-character escapes are supported (`\uXXXX` is rejected; no input in this
development uses it). -/
def parseStringBody : List Char → Option (List Char × List Char)
  | [] => none
  | '"' :: rest => some ([], rest)
  | '\\' :: e :: rest =>
    match (match e with
           | '"' => some '"'
           | '\\' => some '\\'
           | '/' => some '/'
           | 'b' => some '\x08'
           | 'f' => some '\x0c'
           | 'n' => some '\n'
           | 'r' => some '\r'
           | 't' => some '\t'
           | _ => none) with
    | none => none
    | some d =>
      match parseStringBody rest with
      | none => none
      | some (cs, rem) => some (d :: cs, rem)
  | c :: rest =>
    if c.toNat < 32 then none
    else
      match parseStringBody rest with
      | none => none
      | some (cs, rem) => some (c :: cs, rem)

/-- Numeric value of a digit run. -/
def digitsVal (l : List Char) : Nat :=
  l.foldl (fun n c => n * 10 + (c.toNat - 48)) 0

/-- A JSON integer numeral (`-? (0 | [1-9][0-9]*)`).  Fractions and exponents
are rejected rather than modelled: every numeral in this development is an
integer. -/
def parseNumber (l : List Char) : Option (Json × List Char) :=
  let (neg, l1) := match l with
                   | '-' :: r => (true, r)
                   | _ => (false, l)
  let digits := l1.takeWhile Char.isDigit
  let rest := l1.dropWhile Char.isDigit
  if digits.isEmpty then none
  else if 1 < digits.length && digits.head? = some '0' then none
  else
    match rest with
    | '.' :: _ => none
    | 'e' :: _ => none
    | 'E' :: _ => none
    | _ =>
      let v : Int := Int.ofNat (digitsVal digits)
      some (.num (if neg then -v else v), rest)

mutual

/-- One JSON value, strict grammar (model of the recursive descent inside
`json.loads`).  `fuel` only forces termination; `jloads` below supplies more
than enough of it for any input. -/
def parseVal : Nat → List Char → Option (Json × List Char)
  | 0, _ => none
  | fuel + 1, l =>
    match skipWs l with
    | 'n' :: 'u' :: 'l' :: 'l' :: rest => some (.null, rest)
    | 't' :: 'r' :: 'u' :: 'e' :: rest => some (.bool true, rest)
    | 'f' :: 'a' :: 'l' :: 's' :: 'e' :: rest => some (.bool false, rest)
    | '"' :: rest =>
      match parseStringBody rest with
      | none => none
      | some (cs, rem) => some (.str cs, rem)
    | '[' :: rest =>
      match skipWs rest with
      | ']' :: rem => some (.arr [], rem)
      | r => parseArrItems fuel r []
    | '\x7b' :: rest =>
      match skipWs rest with
      | '\x7d' :: rem => some (.obj [], rem)
      | r => parseObjItems fuel r []
    | l' => parseNumber l'

/-- Comma-separated array elements up to the closing bracket. -/
def parseArrItems : Nat → List Char → List Json → Option (Json × List Char)
  | 0, _, _ => none
  | fuel + 1, l, acc =>
    match parseVal fuel l with
    | none => none
    | some (v, rest) =>
      match skipWs rest with
      | ',' :: rest' => parseArrItems fuel rest' (acc ++ [v])
      | ']' :: rest' => some (.arr (acc ++ [v]), rest')
      | _ => none

/-- Comma-separated `"key": value` members up to the closing brace.  A
duplicated key overwrites the earlier binding in place, exactly as building a
Python dict does. -/
def parseObjItems : Nat → List Char → List (List Char × Json) → Option (Json × List Char)
  | 0, _, _ => none
  | fuel + 1, l, acc =>
    match skipWs l with
    | '"' :: rest =>
      match parseStringBody rest with
      | none => none
      | some (k, rest1) =>
        match skipWs rest1 with
        | ':' :: rest2 =>
          match parseVal fuel rest2 with
          | none => none
          | some (v, rest3) =>
            match skipWs rest3 with
            | ',' :: rest4 => parseObjItems fuel rest4 (dictSet acc k v)
            | '\x7d' :: rest4 => some (.obj (dictSet acc k v), rest4)
            | _ => none
        | _ => none
    | _ => none

end

/-- Model of Python `json.loads` (strict JSON): parse one value and require
only whitespace after it. -/
def jloads (l : List Char) : Option Json :=
  match parseVal (2 * l.length + 2) l with
  | some (v, rest) => if skipWs rest = [] then some v else none
  | none => none

/-- The character scan of `load_palette` / `parse_theme_json` that finds the
position of a `//` comment while tracking string and escape context:
`i` is the index of the current character, `inStr` is `in_string`, `esc` is
`escape_next`.  Mirrors the loop body exactly: an escaped character is
consumed outright, a backslash sets the escape flag and is consumed, an
unescaped quote toggles `in_string`, and `//` seen while not in a string
reports the comment position. -/
def findCommentPosGo : List Char → Nat → Bool → Bool → Option Nat
  | [], _, _, _ => none
  | c :: rest, i, inStr, esc =>
    if esc then findCommentPosGo rest (i + 1) inStr false
    else if c = '\\' then findCommentPosGo rest (i + 1) inStr true
    else
      let inStr' := if c = '"' then !inStr else inStr
      if inStr' = false && c = '/' && rest.head? = some '/' then some i
      else findCommentPosGo rest (i + 1) inStr' false

/-- `comment_pos` for one line (`-1` in the source becomes `none`). -/
def findCommentPos (line : List Char) : Option Nat :=
  findCommentPosGo line 0 false false

/-- Per-line comment stripping of `load_palette` / `parse_theme_json`:
`line[:comment_pos].rstrip()` when a comment was found, the line unchanged
otherwise. -/
def stripCommentLine (line : List Char) : List Char :=
  match findCommentPos line with
  | some i => pyRstrip (line.take i)
  | none => line

/-- Python `content.split("\n")`. -/
def splitNL : List Char → List (List Char)
  | [] => [[]]
  | '\n' :: rest => [] :: splitNL rest
  | c :: rest =>
    match splitNL rest with
    | [] => [[c]]
    | l :: ls => (c :: l) :: ls

/-- Python `"\n".join(lines)`. -/
def joinNL (ls : List (List Char)) : List Char :=
  List.intercalate ['\n'] ls

/-- Left-to-right scan implementing `re.sub(r",\s*([}\]])", r"\1", s)`: a
comma followed by a (maximal) whitespace run and then `}` or `]` is replaced
by the bracket alone, and scanning resumes after it; any other character is
copied.  `fuel` only forces termination; every step consumes at least one
input character, so `fuel = length` never runs out. -/
def rtcFuel : Nat → List Char → List Char
  | 0, l => l
  | _, [] => []
  | fuel + 1, ',' :: rest =>
    match rest.dropWhile isPySpace with
    | b :: tail =>
      if b = '\x7d' || b = ']' then b :: rtcFuel fuel tail
      else ',' :: rtcFuel fuel rest
    | [] => ',' :: rtcFuel fuel rest
  | fuel + 1, c :: rest => c :: rtcFuel fuel rest

/-- `re.sub(r",\s*([}\]])", r"\1", s)` — the trailing-comma removal applied
after comment stripping. -/
def removeTrailingCommas (l : List Char) : List Char :=
  rtcFuel l.length l

/-- `load_palette`, applied to the palette file's text: strip `//` comments
line by line (string-aware), re-join the lines, delete trailing commas, and
parse the result as strict JSON. -/
def load_palette (content : List Char) : Option Json :=
  jloads (removeTrailingCommas (joinNL ((splitNL content).map stripCommentLine)))

/-- `parse_theme_json`: identical to `load_palette` except that lines that are
empty after comment stripping are dropped (`if line.strip():`). -/
def parse_theme_json (content : List Char) : Option Json :=
  jloads (removeTrailingCommas (joinNL
    (((splitNL content).map stripCommentLine).filter
      (fun l => !(l.all isPySpace)))))

/-- Python `s.replace(pat, rep)` for a non-empty `pat`: replace every
non-overlapping occurrence, scanning left to right and resuming after each
replacement.  `fuel` only forces termination (each step consumes at least one
input character, so `fuel = length` never runs out). -/
def replaceAllFuel : Nat → List Char → List Char → List Char → List Char
  | 0, _, _, s => s
  | _, _, _, [] => []
  | fuel + 1, pat, rep, c :: rest =>
    if !pat.isEmpty && pat.isPrefixOf (c :: rest) then
      rep ++ replaceAllFuel fuel pat rep ((c :: rest).drop pat.length)
    else
      c :: replaceAllFuel fuel pat rep rest

/-- Python `s.replace(pat, rep)` (patterns used here are never empty). -/
def replaceAll (pat rep s : List Char) : List Char :=
  replaceAllFuel s.length pat rep s

/-- `replace_colors`: substitute `\x7b\x7btheme_name\x7d\x7d`,
`\x7b\x7bappearance\x7d\x7d` (defaulting to `"dark"` when the palette has no
`appearance` key) and, for every palette colour `key`, every occurrence of
`\x7b\x7bkey\x7d\x7d`, in the template text.  `none` models the exceptions
Python would raise: a missing/non-string `name`, a non-string `appearance`
or colour value, or a missing/non-object `colors` entry. -/
def replace_colors (template : List Char) (palette : Json) : Option (List Char) :=
  match jget palette (S "name") with
  | some (.str nm) =>
    let r1 := replaceAll (S "\x7b\x7btheme_name\x7d\x7d") nm template
    match (match jget palette (S "appearance") with
           | some (.str a) => some a
           | some _ => none
           | none => some (S "dark")) with
    | none => none
    | some ap =>
      let r2 := replaceAll (S "\x7b\x7bappearance\x7d\x7d") ap r1
      match jget palette (S "colors") with
      | some (.obj colors) =>
        colors.foldlM
          (fun acc kv =>
            match kv.2 with
            | .str v => some (replaceAll ('\x7b' :: '\x7b' :: kv.1 ++ '\x7d' :: ['\x7d']) v acc)
            | _ => none)
          r2
      | _ => none
  | _ => none

/-- The `BLUR_ALPHA` table: transparency level name to 2-hex-digit alpha
suffix. -/
def BLUR_ALPHA : List (List Char × List Char) :=
  [(S "transparent", S "00"),
   (S "subtle", S "1A"),
   (S "tint", S "33"),
   (S "visible", S "60"),
   (S "solid", S "A0"),
   (S "opaque", S "D7")]

/-- The `BLUR_KEYS` table: style key to transparency level name. -/
def BLUR_KEYS : List (List Char × List Char) :=
  [(S "background", S "opaque"),
   (S "status_bar.background", S "opaque"),
   (S "title_bar.background", S "opaque"),
   (S "surface.background", S "opaque"),
   (S "editor.background", S "transparent"),
   (S "editor.gutter.background", S "transparent"),
   (S "editor.active_line.background", S "subtle"),
   (S "terminal.background", S "transparent"),
   (S "panel.background", S "transparent"),
   (S "panel.overlay_background", S "transparent"),
   (S "tab_bar.background", S "transparent"),
   (S "tab.inactive_background", S "transparent"),
   (S "tab.active_background", S "solid"),
   (S "toolbar.background", S "transparent"),
   (S "element.active", S "transparent"),
   (S "element.selected", S "visible"),
   (S "border", S "subtle"),
   (S "border.variant", S "transparent"),
   (S "border.transparent", S "transparent"),
   (S "panel.focused_border", S "transparent"),
   (S "pane.focused_border", S "subtle"),
   (S "pane_group.border", S "subtle"),
   (S "editor.highlighted_line.background", S "subtle"),
   (S "editor.line_number", S "solid"),
   (S "editor.active_line_number", S "solid"),
   (S "editor.invisible", S "visible"),
   (S "editor.wrap_guide", S "subtle"),
   (S "editor.active_wrap_guide", S "tint"),
   (S "editor.indent_guide", S "solid"),
   (S "editor.indent_guide_active", S "solid"),
   (S "editor.document_highlight.bracket_background", S "subtle"),
   (S "editor.document_highlight.read_background", S "tint"),
   (S "editor.document_highlight.write_background", S "tint"),
   (S "editor.debugger_active_line.background", S "subtle"),
   (S "ghost_element.background", S "visible"),
   (S "ghost_element.hover", S "solid"),
   (S "ghost_element.active", S "tint"),
   (S "ghost_element.selected", S "visible"),
   (S "scrollbar.track.background", S "transparent"),
   (S "scrollbar.track.border", S "transparent"),
   (S "scrollbar.thumb.background", S "solid"),
   (S "scrollbar.thumb.hover_background", S "solid"),
   (S "scrollbar.thumb.active_background", S "solid"),
   (S "minimap.thumb.background", S "tint"),
   (S "minimap.thumb.hover_background", S "visible"),
   (S "minimap.thumb.active_background", S "solid"),
   (S "search.match_background", S "tint"),
   (S "drop_target.background", S "solid"),
   (S "conflict.background", S "tint"),
   (S "created.background", S "tint"),
   (S "deleted.background", S "tint"),
   (S "modified.background", S "tint"),
   (S "renamed.background", S "tint"),
   (S "ignored.background", S "tint"),
   (S "unreachable.background", S "subtle"),
   (S "hint.background", S "opaque")]

/-- `add_alpha_to_color` on a parsed style value.  A non-string value, an
empty string (falsy in Python) or a string not starting with `#` is returned
unchanged; otherwise the first 7 characters (the whole string when shorter)
get the level's suffix appended, the level being looked up in `BLUR_ALPHA`
with default `"FF"`. -/
def add_alpha_to_color (color : Json) (alpha_level : List Char) : Json :=
  match color with
  | .str s =>
    if s.isEmpty then color
    else if s.head? = some '#' then
      .str ((if 7 ≤ s.length then s.take 7 else s) ++
            ((dictGet BLUR_ALPHA alpha_level).getD (S "FF")))
    else color
  | _ => color

/-- The `BLUR_KEYS` loop of `create_blurred_variant` on the style object's
binding list: for each `(key, alpha_level)` pair in table order, a key present
in the style is rewritten through `add_alpha_to_color`, an absent key is
skipped. -/
def applyBlurKeys : List (List Char × List Char) → List (List Char × Json) →
    List (List Char × Json)
  | [], sfields => sfields
  | kl :: tbl, sfields =>
    applyBlurKeys tbl
      (match dictGet sfields kl.1 with
       | some ov => dictSet sfields kl.1 (add_alpha_to_color ov kl.2)
       | none => sfields)

/-- `create_blurred_variant`, value-level semantics: the result of deep-copying
the theme and mutating the copy — rename to `"<name> - blurred"`, set
`style["background.appearance"] = "blurred"`, then run the `BLUR_KEYS` loop.
`none` models the exceptions Python would raise when `theme` is not an object,
has no string `name`, or has no object `style`.  (The heap-level semantics of
the same function, used to verify the absence of mutation of the input, is
`create_blurred_variant_heap` below.) -/
def create_blurred_variant (theme : Json) : Option Json :=
  match theme with
  | .obj fields =>
    match dictGet fields (S "name") with
    | some (.str n) =>
      match dictGet fields (S "style") with
      | some (.obj sfields) =>
        let fields1 := dictSet fields (S "name") (.str (n ++ S " - blurred"))
        let sfields1 := dictSet sfields (S "background.appearance") (.str (S "blurred"))
        let sfields2 := applyBlurKeys BLUR_KEYS sfields1
        some (.obj (dictSet fields1 (S "style") (.obj sfields2)))
      | _ => none
    | _ => none
  | _ => none

/-- The search-and-replace loop of `add_or_update_theme` over the themes
array: replace the first entry whose `name` equals `theme_name`, else append
the new theme at the end.  `none` models the KeyError/TypeError Python raises
when an entry reached by the scan has no `name`. -/
def upsertByName : List Json → Json → Json → Option (List Json)
  | [], new_theme, _ => some [new_theme]
  | t :: rest, new_theme, theme_name =>
    match jget t (S "name") with
    | some n =>
      if n = theme_name then some (new_theme :: rest)
      else
        match upsertByName rest new_theme theme_name with
        | some rest' => some (t :: rest')
        | none => none
    | none => none

/-- `add_or_update_theme`: upsert `new_theme` into `themes_data["themes"]`
by `new_theme["name"]`.  In the source the list is mutated in place; here the
updated collection is returned (`none` models the exceptions raised on a
missing `name` or a missing/non-array `themes`). -/
def add_or_update_theme (themes_data new_theme : Json) : Option Json :=
  match jget new_theme (S "name") with
  | some theme_name =>
    match jget themes_data (S "themes") with
    | some (.arr ts) =>
      match upsertByName ts new_theme theme_name with
      | some ts' => some (jset themes_data (S "themes") (.arr ts'))
      | none => none
    | _ => none
  | none => none

/-- `load_existing_themes` over the abstracted disk state: the parsed
collection file when it exists, else the fresh initial structure. -/
def load_existing_themes (disk : Option Json) : Json :=
  match disk with
  | some j => j
  | none => .obj [(S "name", .str (S "Fedaykin Themes")),
                  (S "author", .str (S "FedaykinDev")),
                  (S "themes", .arr [])]

/-- The list comprehension of `remove_theme`:
`[t for t in themes if t["name"] != theme_name]`.  `none` models the
KeyError/TypeError raised when some entry has no `name`. -/
def filterNamedNe : List Json → Json → Option (List Json)
  | [], _ => some []
  | t :: rest, theme_name =>
    match jget t (S "name") with
    | some n =>
      match filterNamedNe rest theme_name with
      | some rest' => some (if n = theme_name then rest' else t :: rest')
      | none => none
    | none => none

/-- `remove_theme` over the abstracted disk state.  Returns the disk state
after the call together with a flag recording whether `save_themes` was
invoked: the filtered collection is written back only when the filter shrank
the array, otherwise the file is untouched and only a message is printed.
Either way the function returns normally (the outer `Option` is `none` only
for the exceptions modelled by `filterNamedNe`/a malformed collection). -/
def remove_theme (disk : Option Json) (theme_name : Json) :
    Option (Option Json × Bool) :=
  let themes_data := load_existing_themes disk
  match jget themes_data (S "themes") with
  | some (.arr ts) =>
    match filterNamedNe ts theme_name with
    | some ts' =>
      if ts'.length < ts.length then
        some (some (jset themes_data (S "themes") (.arr ts')), true)
      else
        some (disk, false)
    | none => none
  | _ => none

/-!
Heap model of Python objects, used to verify `create_blurred_variant`'s
frame property (the source mutates only the `copy.deepcopy` of its input).
A heap is a list of dict objects addressed by position; a value stored in a
dict is either an immutable primitive or a reference to another object.
-/

/-- A Python value: an immutable primitive or a reference to a heap object. -/
inductive Val where
  | prim (j : Json)
  | ref (a : Nat)
deriving DecidableEq

/-- A heap object: one insertion-ordered dict. -/
abbrev HObj := List (List Char × Val)

/-- The heap: objects addressed by position; allocation appends. -/
abbrev Heap := List HObj

/-- Read field `k` of the object at address `a`. -/
def getField (h : Heap) (a : Nat) (k : List Char) : Option Val :=
  match h[a]? with
  | some o => dictGet o k
  | none => none

/-- Mutate field `k` of the object at address `a` in place. -/
def setField (h : Heap) (a : Nat) (k : List Char) (v : Val) : Heap :=
  match h[a]? with
  | some o => h.set a (dictSet o k v)
  | none => h

/-- `copy.deepcopy` on a list of values: primitives are copied as themselves,
and each reference is replaced by a reference to a freshly allocated copy of
its object, whose field values are deep-copied first.  `fuel` forces
termination (the object graphs of parsed JSON are trees, for which the
allowance supplied by `create_blurred_variant_heap` is ample; a cyclic heap
would exhaust it and yield `none`). -/
def deepcopyVals : Nat → Heap → List Val → Option (Heap × List Val)
  | _, h, [] => some (h, [])
  | 0, _, _ :: _ => none
  | fuel + 1, h, .prim j :: rest =>
    match deepcopyVals fuel h rest with
    | some (h', vs) => some (h', .prim j :: vs)
    | none => none
  | fuel + 1, h, .ref a :: rest =>
    match h[a]? with
    | none => none
    | some o =>
      match deepcopyVals fuel h (o.map Prod.snd) with
      | none => none
      | some (h1, ws) =>
        let o' := (o.map Prod.fst).zip ws
        match deepcopyVals fuel (h1 ++ [o']) rest with
        | none => none
        | some (h2, vs) => some (h2, .ref h1.length :: vs)

/-- Fuel allowance for `deepcopyVals`: generous for any tree-shaped heap. -/
def heapFuel (h : Heap) : Nat :=
  h.foldl (fun n o => n + o.length + 1) 1

/-- `add_alpha_to_color` applied to a stored style value: primitives go
through the string check of the source, references (nested dicts/lists, never
strings) fall under its `isinstance` guard and are returned unchanged. -/
def valAddAlpha (v : Val) (alpha_level : List Char) : Val :=
  match v with
  | .prim j => .prim (add_alpha_to_color j alpha_level)
  | .ref _ => v

/-- The `BLUR_KEYS` loop of `create_blurred_variant`, heap-level semantics:
for each `(key, alpha_level)` pair in table order, rewrite field `key` of the
style object at address `s` through `add_alpha_to_color` when present, skip it
when absent. -/
def applyBlurKeysHeap : List (List Char × List Char) → Heap → Nat → Heap
  | [], h, _ => h
  | kl :: tbl, h, s =>
    applyBlurKeysHeap tbl
      (match getField h s kl.1 with
       | some ov => setField h s kl.1 (valAddAlpha ov kl.2)
       | none => h)
      s

/-- `create_blurred_variant`, heap-level semantics: deep-copy the theme
object at address `t`, then mutate only the copy — set its `name`, set
`background.appearance` on its `style` object, and run the `BLUR_KEYS` loop
on that style object.  Returns the final heap and the copy's address
(`none` models the exceptions Python would raise on a malformed theme). -/
def create_blurred_variant_heap (h : Heap) (t : Nat) : Option (Heap × Nat) :=
  match deepcopyVals (2 * heapFuel h + 2) h [.ref t] with
  | some (h1, [.ref t']) =>
    match getField h1 t (S "name") with
    | some (.prim (.str n)) =>
      let h2 := setField h1 t' (S "name") (.prim (.str (n ++ S " - blurred")))
      match getField h2 t' (S "style") with
      | some (.ref s') =>
        let h3 := setField h2 s' (S "background.appearance")
                    (.prim (.str (S "blurred")))
        some (applyBlurKeysHeap BLUR_KEYS h3 s', t')
      | _ => none
    | _ => none
  | _ => none

/-- A minimal theme template containing the two placeholders and the two
style keys of the spec's end-to-end scenario. -/
def sampleTemplate : List Char :=
  S "\x7b\n  \"name\": \"\x7b\x7btheme_name\x7d\x7d\",\n  \"appearance\": \"\x7b\x7bappearance\x7d\x7d\",\n  \"style\": \x7b\n    \"background.appearance\": \"opaque\",\n    \"editor.background\": \"\x7b\x7bbg\x7d\x7d\"\n  \x7d\n\x7d"

/-- The palette text of the spec's end-to-end scenario. -/
def samplePaletteText : List Char :=
  S "\x7b\"name\":\"Sample\",\"colors\":\x7b\"bg\":\"#112233\"\x7d\x7d"

/-- The end-to-end pipeline of `generate_theme` on the sample palette and
template: load the palette, render the template, parse the rendered text,
derive the blurred variant. -/
def sampleBlurred : Option Json :=
  (load_palette samplePaletteText).bind fun pal =>
  (replace_colors sampleTemplate pal).bind fun txt =>
  (parse_theme_json txt).bind fun opq =>
  create_blurred_variant opq

/-- A strict, comment-free JSON text whose string value contains a comma
immediately followed by a closing brace. -/
def stressInput : List Char :=
  S "\x7b\"a\": \"x,\x7d\"\x7d"

/-- A minimal theme used as concrete input: no `editor.background`, and a
non-string value under the blur key `border`. -/
def miniThemeFields : List (List Char × Json) :=
  [(S "name", .str (S "T")), (S "style", .obj [(S "border", .num 1)])]

/-- A theme named `A`. -/
def themeA : Json := .obj [(S "name", .str (S "A"))]

/-- A theme named `B`. -/
def themeB : Json := .obj [(S "name", .str (S "B"))]

/-- A collection whose themes array holds `A` and `B`. -/
def collAB : List (List Char × Json) :=
  [(S "name", .str (S "Fedaykin Themes")), (S "author", .str (S "FedaykinDev")),
   (S "themes", .arr [themeA, themeB])]

/-- A value mentions only heap addresses at or beyond `n`. -/
def valGE (n : Nat) : Val → Prop
  | .prim _ => True
  | .ref a => n ≤ a

/-- All field values of an object mention only addresses at or beyond `n`. -/
def objGE (n : Nat) (o : HObj) : Prop := ∀ p ∈ o, valGE n p.2

/-- A two-object heap: a style object at address 0 and a theme at address 1. -/
def heap0 : Heap :=
  [[(S "editor.background", .prim (.str (S "#112233")))],
   [(S "name", .prim (.str (S "Sample"))), (S "style", .ref 0)]]

/-- The heap after `create_blurred_variant_heap heap0 1`: the two original
objects untouched, followed by the mutated copies at addresses 2 and 3. -/
def heap0Result : Heap :=
  [[(S "editor.background", .prim (.str (S "#112233")))],
   [(S "name", .prim (.str (S "Sample"))), (S "style", .ref 0)],
   [(S "editor.background", .prim (.str (S "#11223300"))),
    (S "background.appearance", .prim (.str (S "blurred")))],
   [(S "name", .prim (.str (S "Sample - blurred"))), (S "style", .ref 2)]]

/-!  Lemmas about the association-list dictionary operations. -/

theorem dictGet_dictSet {α β : Type} [DecidableEq α] (l : List (α × β)) (k' : α) (v : β) (k : α) :
    dictGet (dictSet l k' v) k = if k' = k then some v else dictGet l k := by
  induction l with
  | nil => by_cases h : k' = k <;> simp [dictGet, dictSet, h]
  | cons p rest ih =>
    obtain ⟨pk, pv⟩ := p
    by_cases h1 : pk = k'
    · subst h1
      by_cases h2 : pk = k <;> simp [dictGet, dictSet, h2]
    · by_cases h2 : pk = k
      · have h3 : ¬k' = k := fun hh => h1 (h2.trans hh.symm)
        have h4 : ¬k = k' := fun hh => h3 hh.symm
        simp [dictGet, dictSet, h1, h2, h3, h4]
      · simp [dictGet, dictSet, h1, h2, ih]

theorem add_alpha_nonconforming (v : Json) (lvl : List Char)
    (h : ∀ s : List Char, v = .str s → s.isEmpty = true ∨ s.head? ≠ some '#') :
    add_alpha_to_color v lvl = v := by
  cases v with
  | str s =>
    by_cases he : s.isEmpty = true
    · simp [add_alpha_to_color, he]
    · rcases h s rfl with h1 | h1
      · exact absurd h1 he
      · simp [add_alpha_to_color, he, h1]
  | null => rfl
  | bool b => rfl
  | num n => rfl
  | arr xs => rfl
  | obj fs => rfl

/-- Every alpha code in the `BLUR_ALPHA` table has two hex digits. -/
theorem blur_alpha_code_length (lvl code : List Char)
    (h : dictGet BLUR_ALPHA lvl = some code) : code.length = 2 := by
  simp [BLUR_ALPHA, dictGet] at h
  split_ifs at h <;> (injection h with h2; exact h2 ▸ (by decide))

/-- Unfolding of `add_alpha_to_color` on a `#`-prefixed string. -/
theorem add_alpha_hash (x lvl : List Char) (hx : x.head? = some '#') :
    add_alpha_to_color (.str x) lvl =
      .str ((if 7 ≤ x.length then x.take 7 else x) ++
            ((dictGet BLUR_ALPHA lvl).getD (S "FF"))) := by
  have hne : x.isEmpty = false := by
    cases x with
    | nil => simp at hx
    | cons c cs => rfl
  simp [add_alpha_to_color, hne, hx]

/-- Claim C3: for every valid 7-character hex colour `#RRGGBB` and every level
in the `BLUR_ALPHA` table, `add_alpha_to_color` returns a 9-character string
whose first 7 characters are the input and whose last 2 are the level's code;
on the corresponding 9-character `#RRGGBBAA` input the old alpha digits are
discarded and the new code appended, hence the operation is idempotent at a
fixed level. -/
theorem claim_C3 (s lvl code : List Char)
    (hlen : s.length = 7) (hhead : s.head? = some '#')
    (hhex : ∀ c ∈ s.drop 1, isHexDigitChar c = true)
    (htab : dictGet BLUR_ALPHA lvl = some code) :
    add_alpha_to_color (.str s) lvl = .str (s ++ code) ∧
    (s ++ code).length = 9 ∧
    (s ++ code).take 7 = s ∧
    (s ++ code).drop 7 = code ∧
    (∀ a2 : List Char, a2.length = 2 →
      add_alpha_to_color (.str (s ++ a2)) lvl = .str (s ++ code)) ∧
    add_alpha_to_color (add_alpha_to_color (.str s) lvl) lvl =
      add_alpha_to_color (.str s) lvl := by
  have hcode2 : code.length = 2 := blur_alpha_code_length lvl code htab
  have hne : s ≠ [] := by intro hh; rw [hh] at hhead; simp at hhead
  have h7 : List.take 7 s = s := List.take_of_length_le (by omega)
  have happ : add_alpha_to_color (.str s) lvl = .str (s ++ code) := by
    rw [add_alpha_hash s lvl hhead, if_pos (by omega), h7, htab]
    rfl
  have hgen : ∀ a2 : List Char, a2.length = 2 →
      add_alpha_to_color (.str (s ++ a2)) lvl = .str (s ++ code) := by
    intro a2 ha2
    have hh : (s ++ a2).head? = some '#' := by simp [List.head?_append, hhead]
    have hlen2 : 7 ≤ (s ++ a2).length := by simp [List.length_append, hlen, ha2]
    have htake : (s ++ a2).take 7 = s := by
      rw [List.take_append_eq_append_take]
      simp [hlen, h7]
    rw [add_alpha_hash _ lvl hh, if_pos hlen2, htake, htab]
    rfl
  refine ⟨happ, ?_, ?_, ?_, hgen, ?_⟩
  · simp [List.length_append, hlen, hcode2]
  · rw [List.take_append_eq_append_take]
    simp [hlen, h7]
  · have hd := List.drop_left s code
    rwa [hlen] at hd
  · rw [happ]
    exact hgen code hcode2

/-- Witness for claim C3 at the colour `#112233` and level `transparent`. -/
theorem claim_C3_witness :
    add_alpha_to_color (.str (S "#112233")) (S "transparent") = .str (S "#11223300") ∧
    add_alpha_to_color (.str (S "#112233AB")) (S "transparent") = .str (S "#11223300") := by
  have h := claim_C3 (S "#112233") (S "transparent") (S "00")
    (by decide) (by decide) (by decide) (by decide)
  exact ⟨h.1, h.2.2.2.2.1 (S "AB") (by decide)⟩

/-- Dropping a satisfying prefix skips past it. -/
theorem dropWhile_append_all {p : Char → Bool} (ws l : List Char)
    (h : ∀ c ∈ ws, p c = true) :
    List.dropWhile p (ws ++ l) = List.dropWhile p l := by
  induction ws with
  | nil => rfl
  | cons c rest ih =>
    simp only [List.cons_append, List.dropWhile_cons, h c (by simp)]
    exact ih (fun c hc => h c (by simp [hc]))

/-- `dropWhile` never lengthens a list. -/
theorem length_dropWhile_le' (p : Char → Bool) (l : List Char) :
    (l.dropWhile p).length ≤ l.length := by
  induction l with
  | nil => simp [List.dropWhile]
  | cons c rest ih =>
    by_cases h : p c <;> simp [List.dropWhile_cons, h] <;> omega

/-- The fuel of `rtcFuel` is irrelevant once it covers the input length. -/
theorem rtcFuel_congr : ∀ f g l, l.length ≤ f → l.length ≤ g → rtcFuel f l = rtcFuel g l := by
  intro f
  induction f with
  | zero =>
    intro g l h1 _
    have : l = [] := List.eq_nil_of_length_eq_zero (by omega)
    subst this
    cases g <;> rfl
  | succ f ih =>
    intro g l h1 h2
    cases l with
    | nil => cases g <;> rfl
    | cons c rest =>
      cases g with
      | zero => simp at h2
      | succ g' =>
      simp only [List.length_cons] at h1 h2
      by_cases hc : c = ','
      · subst hc
        cases hdw : rest.dropWhile isPySpace with
        | nil =>
          simp only [rtcFuel, hdw]
          exact congrArg (',' :: ·) (ih g' rest (by omega) (by omega))
        | cons b tail =>
          have htail : tail.length < rest.length := by
            have := length_dropWhile_le' isPySpace rest
            rw [hdw] at this
            simp at this
            omega
          by_cases hb : (b = '\x7d' || b = ']') = true
          · simp only [rtcFuel, hdw, hb, if_pos]
            exact congrArg (b :: ·) (ih g' tail (by omega) (by omega))
          · simp only [rtcFuel, hdw, hb]
            simp only [Bool.false_eq_true, if_false]
            exact congrArg (',' :: ·) (ih g' rest (by omega) (by omega))
      · simp only [rtcFuel]
        exact congrArg (c :: ·) (ih g' rest (by omega) (by omega))

/-- Claim C6: the trailing-comma rewrite deletes a comma together with any
following whitespace run immediately preceding a closing brace or bracket,
and in particular rewrites the two example texts of the spec. -/
theorem claim_C6 :
    (∀ (ws t : List Char) (b : Char),
      (∀ c ∈ ws, isPySpace c = true) → (b = '\x7d' ∨ b = ']') →
      removeTrailingCommas (',' :: (ws ++ b :: t)) = b :: removeTrailingCommas t) ∧
    removeTrailingCommas (S "\x7b\"a\":1,\x7d") = S "\x7b\"a\":1\x7d" ∧
    removeTrailingCommas (S "[1,2,]") = S "[1,2]" := by
  refine ⟨?_, by decide, by decide⟩
  intro ws t b hws hb
  have hbf : isPySpace b = false := by
    rcases hb with hb | hb <;> subst hb <;> decide
  have hdw : (ws ++ b :: t).dropWhile isPySpace = b :: t := by
    rw [dropWhile_append_all ws (b :: t) hws, List.dropWhile_cons, hbf]
    simp
  have hbb : (b = '\x7d' || b = ']') = true := by
    rcases hb with hb | hb <;> subst hb <;> decide
  have hL : (',' :: (ws ++ b :: t)).length = (ws.length + t.length + 1) + 1 := by
    simp [List.length_append]
    omega
  unfold removeTrailingCommas
  rw [hL]
  simp only [rtcFuel, hdw, hbb, if_pos]
  exact congrArg (b :: ·) (rtcFuel_congr _ _ t (by omega) (by omega))

/-- Witness for claim C6 at a concrete comma/whitespace/bracket split. -/
theorem claim_C6_witness :
    removeTrailingCommas (',' :: (S " " ++ ']' :: S "x")) = ']' :: removeTrailingCommas (S "x") :=
  claim_C6.1 (S " ") (S "x") ']' (by decide) (by decide)

/-- The comment scan passes over in-string characters (no quote, no
backslash) without finding a comment and without leaving the string. -/
theorem fcp_skip_string : ∀ (a : List Char), (∀ c ∈ a, c ≠ '"' ∧ c ≠ '\\') →
    ∀ (rest : List Char) (i : Nat),
    findCommentPosGo (a ++ rest) i true false = findCommentPosGo rest (i + a.length) true false := by
  intro a
  induction a with
  | nil => intro _ rest i; simp
  | cons c a' ih =>
    intro h rest i
    have hc1 : ¬c = '"' := (h c (by simp)).1
    have hc2 : ¬c = '\\' := (h c (by simp)).2
    have step : findCommentPosGo ((c :: a') ++ rest) i true false =
        findCommentPosGo (a' ++ rest) (i + 1) true false := by
      simp [findCommentPosGo, hc1, hc2]
    rw [step, ih (fun d hd => h d (by simp [hd])) rest (i + 1)]
    congr 1
    simp [List.length_cons]
    omega

/-- The comment scan passes over plain characters (no quote, backslash or
slash) outside a string without finding a comment. -/
theorem fcp_skip_plain : ∀ (a : List Char), (∀ c ∈ a, c ≠ '"' ∧ c ≠ '\\' ∧ c ≠ '/') →
    ∀ (rest : List Char) (i : Nat),
    findCommentPosGo (a ++ rest) i false false = findCommentPosGo rest (i + a.length) false false := by
  intro a
  induction a with
  | nil => intro _ rest i; simp
  | cons c a' ih =>
    intro h rest i
    have hc1 : ¬c = '"' := (h c (by simp)).1
    have hc2 : ¬c = '\\' := (h c (by simp)).2.1
    have hc3 : ¬c = '/' := (h c (by simp)).2.2
    have step : findCommentPosGo ((c :: a') ++ rest) i false false =
        findCommentPosGo (a' ++ rest) (i + 1) false false := by
      simp [findCommentPosGo, hc1, hc2, hc3]
    rw [step, ih (fun d hd => h d (by simp [hd])) rest (i + 1)]
    congr 1
    simp [List.length_cons]
    omega

/-- Claim C1: comment stripping is string-aware — a `//` following plain
code content truncates the line there with trailing whitespace trimmed, a
line consisting of one double-quoted string is left unmodified even when it
contains `//` (e.g. the `http://example.com` line), and an escaped quote
does not toggle the in-string state (the third concrete line). -/
theorem claim_C1 :
    (∀ (a b : List Char), (∀ c ∈ a, c ≠ '"' ∧ c ≠ '\\' ∧ c ≠ '/') →
      stripCommentLine (a ++ '/' :: '/' :: b) = pyRstrip a) ∧
    (∀ a : List Char, (∀ c ∈ a, c ≠ '"' ∧ c ≠ '\\') →
      stripCommentLine ('"' :: (a ++ ['"'])) = '"' :: (a ++ ['"'])) ∧
    stripCommentLine (S "  \"url\": \"http://example.com\",") =
      S "  \"url\": \"http://example.com\"," ∧
    stripCommentLine (S "  \"a\": 1,  // trailing note") = S "  \"a\": 1," ∧
    stripCommentLine (S "\"a \\\" b // c\"") = S "\"a \\\" b // c\"" := by
  refine ⟨?_, ?_, by decide, by decide, by decide⟩
  · intro a b h
    have hpos : findCommentPos (a ++ '/' :: '/' :: b) = some a.length := by
      unfold findCommentPos
      rw [fcp_skip_plain a h ('/' :: '/' :: b) 0]
      simp [findCommentPosGo]
    simp only [stripCommentLine, hpos]
    rw [List.take_left a ('/' :: '/' :: b)]
  · intro a h
    have hpos : findCommentPos ('"' :: (a ++ ['"'])) = none := by
      unfold findCommentPos
      have step : findCommentPosGo ('"' :: (a ++ ['"'])) 0 false false =
          findCommentPosGo (a ++ ['"']) 1 true false := by
        simp [findCommentPosGo]
      rw [step, fcp_skip_string a h ['"'] 1]
      simp [findCommentPosGo]
    simp only [stripCommentLine, hpos]

/-- Witness for claim C1 at concrete lines. -/
theorem claim_C1_witness :
    stripCommentLine (S "ab " ++ '/' :: '/' :: S " note") = S "ab" ∧
    stripCommentLine ('"' :: (S "http://x" ++ ['"'])) = '"' :: (S "http://x" ++ ['"']) :=
  ⟨(claim_C1.1 (S "ab ") (S " note") (by decide)).trans (by decide),
   claim_C1.2.1 (S "http://x") (by decide)⟩

/-- Claim C2: the end-to-end scenario — the sample palette rendered against a
template containing `"editor.background": "\x7b\x7bbg\x7d\x7d"` and
`"background.appearance": "opaque"` yields, after blur derivation, a theme
named `Sample - blurred` whose style has `editor.background = "#11223300"`
(the `transparent` level) and `background.appearance = "blurred"`. -/
theorem claim_C2 :
    sampleBlurred.isSome = true ∧
    (sampleBlurred.bind fun b => jget b (S "name")) =
      some (.str (S "Sample - blurred")) ∧
    (sampleBlurred.bind fun b => (jget b (S "style")).bind fun st =>
      jget st (S "editor.background")) = some (.str (S "#11223300")) ∧
    (sampleBlurred.bind fun b => (jget b (S "style")).bind fun st =>
      jget st (S "background.appearance")) = some (.str (S "blurred")) :=
  ⟨rfl, rfl, rfl, rfl⟩

/-- Claim C9: the trailing-comma rewrite runs over the joined text without
string awareness, so on `stressInput` — a strict JSON text whose string value
contains `,` immediately before `\x7d` — both `load_palette` and
`parse_theme_json` deliver a value different from the strict JSON parse of
the same text: the comma inside the string literal is deleted. -/
theorem claim_C9 :
    jloads stressInput = some (.obj [(S "a", .str (S "x,\x7d"))]) ∧
    load_palette stressInput = some (.obj [(S "a", .str (S "x\x7d"))]) ∧
    parse_theme_json stressInput = some (.obj [(S "a", .str (S "x\x7d"))]) ∧
    load_palette stressInput ≠ jloads stressInput :=
  ⟨rfl, rfl, rfl, by decide⟩

/-- The `BLUR_KEYS` loop never creates a style key: a key absent from the
style stays absent. -/
theorem applyBlurKeys_get_none (table : List (List Char × List Char)) :
    ∀ fs k, dictGet fs k = none → dictGet (applyBlurKeys table fs) k = none := by
  induction table with
  | nil => intro fs k h; exact h
  | cons kl tbl ih =>
    intro fs k h
    simp only [applyBlurKeys]
    cases hg : dictGet fs kl.1 with
    | none => exact ih fs k h
    | some ov =>
      apply ih
      rw [dictGet_dictSet]
      by_cases he : kl.1 = k
      · rw [he] at hg
        rw [hg] at h
        cases h
      · simp [he, h]

/-- The `BLUR_KEYS` loop maps a non-conforming value (non-string, empty, or
not `#`-prefixed) to itself. -/
theorem applyBlurKeys_get_some_nc (table : List (List Char × List Char)) :
    ∀ fs k v, dictGet fs k = some v →
    (∀ s, v = .str s → s.isEmpty = true ∨ s.head? ≠ some '#') →
    dictGet (applyBlurKeys table fs) k = some v := by
  induction table with
  | nil => intro fs k v h _; exact h
  | cons kl tbl ih =>
    intro fs k v h hnc
    simp only [applyBlurKeys]
    by_cases he : kl.1 = k
    · rw [he, h]
      show dictGet (applyBlurKeys tbl (dictSet fs k (add_alpha_to_color v kl.2))) k = some v
      rw [add_alpha_nonconforming v kl.2 hnc]
      exact ih _ k v (by rw [dictGet_dictSet]; simp) hnc
    · cases hg : dictGet fs kl.1 with
      | none => exact ih fs k v h hnc
      | some ov =>
        exact ih _ k v (by rw [dictGet_dictSet]; simp [he, h]) hnc

/-- Claim C7: for every `BLUR_KEYS` entry, a non-conforming style value
(missing the string/`#` shape) passes through the blur derivation unchanged,
and a key absent from the style is silently skipped — the derivation still
succeeds. -/
theorem claim_C7 (fields sfields : List (List Char × Json)) (n : List Char)
    (hname : dictGet fields (S "name") = some (.str n))
    (hstyle : dictGet fields (S "style") = some (.obj sfields))
    (k lvl : List Char) (hk : (k, lvl) ∈ BLUR_KEYS) :
    (create_blurred_variant (.obj fields)).isSome = true ∧
    (dictGet sfields k = none →
      ((create_blurred_variant (.obj fields)).bind fun b =>
        (jget b (S "style")).bind fun st => jget st k) = none) ∧
    (∀ v, dictGet sfields k = some v →
      (∀ s, v = .str s → s.isEmpty = true ∨ s.head? ≠ some '#') →
      ((create_blurred_variant (.obj fields)).bind fun b =>
        (jget b (S "style")).bind fun st => jget st k) = some v) := by
  have hba : ¬(S "background.appearance") = k := by
    have hall : ∀ p ∈ BLUR_KEYS, ¬p.1 = S "background.appearance" := by decide
    intro he
    exact (hall (k, lvl) hk) (by rw [← he])
  have hcb : create_blurred_variant (.obj fields) =
      some (.obj (dictSet (dictSet fields (S "name") (.str (n ++ S " - blurred")))
        (S "style")
        (.obj (applyBlurKeys BLUR_KEYS
          (dictSet sfields (S "background.appearance") (.str (S "blurred"))))))) := by
    simp [create_blurred_variant, hname, hstyle]
  have hsty : ((create_blurred_variant (.obj fields)).bind fun b =>
      (jget b (S "style")).bind fun st => jget st k) =
      dictGet (applyBlurKeys BLUR_KEYS
        (dictSet sfields (S "background.appearance") (.str (S "blurred")))) k := by
    rw [hcb]
    simp only [Option.some_bind, jget]
    rw [dictGet_dictSet, if_pos rfl]
    simp only [Option.some_bind, jget]
  refine ⟨by rw [hcb]; rfl, ?_, ?_⟩
  · intro h
    rw [hsty]
    apply applyBlurKeys_get_none
    rw [dictGet_dictSet]
    simp [hba, h]
  · intro v hv hnc
    rw [hsty]
    apply applyBlurKeys_get_some_nc BLUR_KEYS _ k v _ hnc
    rw [dictGet_dictSet]
    simp [hba, hv]

/-- Witness for claim C7: a theme whose style lacks `editor.background` and
holds a number under `border`. -/
theorem claim_C7_witness :
    ((create_blurred_variant (.obj miniThemeFields)).bind fun b =>
      (jget b (S "style")).bind fun st => jget st (S "editor.background")) = none ∧
    ((create_blurred_variant (.obj miniThemeFields)).bind fun b =>
      (jget b (S "style")).bind fun st => jget st (S "border")) = some (.num 1) :=
  ⟨(claim_C7 miniThemeFields [(S "border", .num 1)] (S "T") (by decide) (by decide)
      (S "editor.background") (S "transparent") (by decide)).2.1 (by decide),
   (claim_C7 miniThemeFields [(S "border", .num 1)] (S "T") (by decide) (by decide)
      (S "border") (S "subtle") (by decide)).2.2 (.num 1) (by decide)
      (by intro s hs; cases hs)⟩

/-- The upsert loop replaces the first entry whose name matches, leaving the
entries before and after it untouched. -/
theorem upsert_first_match (new_theme theme_name : Json) :
    ∀ (pre post : List Json) (t0 : Json),
    (∀ t ∈ pre, ∃ nv, jget t (S "name") = some nv ∧ nv ≠ theme_name) →
    jget t0 (S "name") = some theme_name →
    upsertByName (pre ++ t0 :: post) new_theme theme_name =
      some (pre ++ new_theme :: post) := by
  intro pre
  induction pre with
  | nil =>
    intro post t0 _ h0
    simp [upsertByName, h0]
  | cons p pre' ih =>
    intro post t0 hpre h0
    obtain ⟨nv, hnv, hne⟩ := hpre p (by simp)
    simp only [List.cons_append, upsertByName, hnv, List.append_eq]
    rw [if_neg hne, ih post t0 (fun t ht => hpre t (by simp [ht])) h0]

/-- The upsert loop appends the new theme when no entry's name matches. -/
theorem upsert_no_match (new_theme theme_name : Json) :
    ∀ ts : List Json,
    (∀ t ∈ ts, ∃ nv, jget t (S "name") = some nv ∧ nv ≠ theme_name) →
    upsertByName ts new_theme theme_name = some (ts ++ [new_theme]) := by
  intro ts
  induction ts with
  | nil => intro _; rfl
  | cons t rest ih =>
    intro h
    obtain ⟨nv, hnv, hne⟩ := h t (by simp)
    simp only [upsertByName, hnv]
    rw [if_neg hne, ih (fun t ht => h t (by simp [ht]))]
    simp

/-- Claim C4: upsert on a collection of N named themes — when entry k is the
first whose name matches the new theme's name, the result has N entries with
entry k replaced and every other entry in its original position; when no
entry matches, the result has N+1 entries, the original N in order followed
by the new theme. -/
theorem claim_C4 (cf : List (List Char × Json)) (ts : List Json)
    (new_theme theme_name : Json)
    (hthemes : dictGet cf (S "themes") = some (.arr ts))
    (hname : jget new_theme (S "name") = some theme_name) :
    (∀ (pre post : List Json) (t0 : Json), ts = pre ++ t0 :: post →
      (∀ t ∈ pre, ∃ nv, jget t (S "name") = some nv ∧ nv ≠ theme_name) →
      jget t0 (S "name") = some theme_name →
      add_or_update_theme (.obj cf) new_theme =
        some (.obj (dictSet cf (S "themes") (.arr (pre ++ new_theme :: post)))) ∧
      (pre ++ new_theme :: post).length = ts.length) ∧
    ((∀ t ∈ ts, ∃ nv, jget t (S "name") = some nv ∧ nv ≠ theme_name) →
      add_or_update_theme (.obj cf) new_theme =
        some (.obj (dictSet cf (S "themes") (.arr (ts ++ [new_theme])))) ∧
      (ts ++ [new_theme]).length = ts.length + 1) := by
  constructor
  · intro pre post t0 hts hpre h0
    subst hts
    refine ⟨?_, by simp [List.length_append]⟩
    have hjget : jget (.obj cf) (S "themes") = some (.arr (pre ++ t0 :: post)) := by
      simp only [jget]
      exact hthemes
    simp only [add_or_update_theme, hname, hjget]
    rw [upsert_first_match new_theme theme_name pre post t0 hpre h0]
    rfl
  · intro hall
    refine ⟨?_, by simp⟩
    have hjget : jget (.obj cf) (S "themes") = some (.arr ts) := by
      simp only [jget]
      exact hthemes
    simp only [add_or_update_theme, hname, hjget]
    rw [upsert_no_match new_theme theme_name ts hall]
    rfl

/-- Witness for claim C4 on the `[A, B]` collection: updating `B` in place
and appending a fresh `C`. -/
theorem claim_C4_witness :
    add_or_update_theme (.obj collAB) (.obj [(S "name", .str (S "B")), (S "kind", .num 2)]) =
      some (.obj (dictSet collAB (S "themes")
        (.arr [themeA, .obj [(S "name", .str (S "B")), (S "kind", .num 2)]]))) ∧
    add_or_update_theme (.obj collAB) (.obj [(S "name", .str (S "C"))]) =
      some (.obj (dictSet collAB (S "themes")
        (.arr [themeA, themeB, .obj [(S "name", .str (S "C"))]]))) := by
  constructor
  · exact ((claim_C4 collAB [themeA, themeB] _ (.str (S "B")) (by decide) (by decide)).1
      [themeA] [] themeB rfl
      (by intro t ht
          simp only [List.mem_singleton] at ht
          subst ht
          exact ⟨.str (S "A"), by decide, by decide⟩)
      (by decide)).1
  · exact ((claim_C4 collAB [themeA, themeB] _ (.str (S "C")) (by decide) (by decide)).2
      (by intro t ht
          simp only [List.mem_cons, List.mem_singleton] at ht
          rcases ht with ht | ht | ht
          · subst ht; exact ⟨.str (S "A"), by decide, by decide⟩
          · subst ht; exact ⟨.str (S "B"), by decide, by decide⟩
          · cases ht)).1

/-- The removal filter keeps every entry when no entry's name matches. -/
theorem filterNamedNe_no_match :
    ∀ (ts : List Json) (nm : Json),
    (∀ t ∈ ts, ∃ nv, jget t (S "name") = some nv ∧ nv ≠ nm) →
    filterNamedNe ts nm = some ts := by
  intro ts nm
  induction ts with
  | nil => intro _; rfl
  | cons t rest ih =>
    intro h
    obtain ⟨nv, hnv, hne⟩ := h t (by simp)
    simp only [filterNamedNe, hnv]
    rw [ih (fun t ht => h t (by simp [ht]))]
    simp [hne]

/-- Claim C5: `remove_theme` deletes all matching entries and reports whether
any were removed — on `[A, B]`, removing `B` yields `[A]` with success
reported, removing `C` from `[A]` leaves it unchanged and reports not-found;
in the not-found case the call still completes normally (it returns a value,
no exception, exit code unaffected) with the collection untouched. -/
theorem claim_C5 :
    (∀ (d : Json) (ts : List Json) (nm : Json),
      jget d (S "themes") = some (.arr ts) →
      (∀ t ∈ ts, ∃ nv, jget t (S "name") = some nv ∧ nv ≠ nm) →
      remove_theme (some d) nm = some (some d, false)) ∧
    remove_theme (some (.obj collAB)) (.str (S "B")) =
      some (some (.obj (dictSet collAB (S "themes") (.arr [themeA]))), true) ∧
    remove_theme (some (.obj (dictSet collAB (S "themes") (.arr [themeA])))) (.str (S "C")) =
      some (some (.obj (dictSet collAB (S "themes") (.arr [themeA]))), false) := by
  refine ⟨?_, by decide, by decide⟩
  intro d ts nm hth hall
  simp only [remove_theme, load_existing_themes]
  simp only [hth]
  rw [filterNamedNe_no_match ts nm hall]
  simp

/-- Witness for claim C5's universal part: removing an absent name from the
`[A, B]` collection. -/
theorem claim_C5_witness :
    remove_theme (some (.obj collAB)) (.str (S "Z")) = some (some (.obj collAB), false) :=
  claim_C5.1 (.obj collAB) [themeA, themeB] (.str (S "Z")) (by decide)
    (by intro t ht
        simp only [List.mem_cons, List.mem_singleton] at ht
        rcases ht with ht | ht | ht
        · subst ht; exact ⟨.str (S "A"), by decide, by decide⟩
        · subst ht; exact ⟨.str (S "B"), by decide, by decide⟩
        · cases ht)

/-- Claim C10: `remove_theme` is atomic with respect to the stored
collection — `save_themes` runs (flag `true`, disk rewritten with the
filtered array) exactly when the filter removed at least one entry;
otherwise the flag is `false` and the on-disk state is returned untouched. -/
theorem claim_C10 (disk : Option Json) (nm : Json) (ts ts' : List Json)
    (hth : jget (load_existing_themes disk) (S "themes") = some (.arr ts))
    (hfil : filterNamedNe ts nm = some ts') :
    remove_theme disk nm =
      some (if ts'.length < ts.length
            then (some (jset (load_existing_themes disk) (S "themes") (.arr ts')), true)
            else (disk, false)) ∧
    (¬ts'.length < ts.length → remove_theme disk nm = some (disk, false)) := by
  have h1 : remove_theme disk nm =
      some (if ts'.length < ts.length
            then (some (jset (load_existing_themes disk) (S "themes") (.arr ts')), true)
            else (disk, false)) := by
    simp only [remove_theme]
    simp only [hth]
    rw [hfil]
    by_cases hlt : ts'.length < ts.length
    · simp [hlt]
    · simp [hlt]
  exact ⟨h1, fun hn => by rw [h1, if_neg hn]⟩

/-- Witness for claim C10: removing `B` from the `[A, B]` collection writes
the filtered collection. -/
theorem claim_C10_witness :
    remove_theme (some (.obj collAB)) (.str (S "B")) =
      some (some (jset (load_existing_themes (some (.obj collAB))) (S "themes")
        (.arr [themeA])), true) :=
  (claim_C10 (some (.obj collAB)) (.str (S "B")) [themeA, themeB] [themeA]
    (by decide) (by decide)).1.trans (by decide)

/-- `valGE` is antitone in the bound. -/
theorem valGE_mono {m n : Nat} (hmn : m ≤ n) : ∀ v, valGE n v → valGE m v := by
  intro v
  cases v with
  | prim j => intro _; trivial
  | ref a => intro hv; exact le_trans hmn hv

/-- `objGE` is antitone in the bound. -/
theorem objGE_mono {m n : Nat} (hmn : m ≤ n) (o : HObj) (ho : objGE n o) : objGE m o :=
  fun p hp => valGE_mono hmn p.2 (ho p hp)

/-- A successful lookup comes from some binding of the list. -/
theorem dictGet_mem {α β : Type} [DecidableEq α] :
    ∀ (l : List (α × β)) (k : α) (v : β), dictGet l k = some v → ∃ p ∈ l, p.2 = v := by
  intro l k v
  induction l with
  | nil => intro h; cases h
  | cons p rest ih =>
    obtain ⟨pk, pv⟩ := p
    intro h
    simp only [dictGet] at h
    by_cases he : pk = k
    · rw [if_pos he] at h
      injection h with h2
      exact ⟨(pk, pv), by simp, h2⟩
    · rw [if_neg he] at h
      obtain ⟨q, hq, hq2⟩ := ih h
      exact ⟨q, by simp [hq], hq2⟩

/-- Frame property of `copy.deepcopy`: the heap only grows at the end, every
value returned references only freshly allocated objects, and the fresh
objects themselves reference only fresh objects. -/
theorem deepcopyVals_frame :
    ∀ (fuel : Nat) (h : Heap) (l : List Val) (h' : Heap) (vs : List Val),
    deepcopyVals fuel h l = some (h', vs) →
    (∃ ext, h' = h ++ ext) ∧ (∀ v ∈ vs, valGE h.length v) ∧
    (∀ o ∈ h'.drop h.length, objGE h.length o) := by
  intro fuel
  induction fuel with
  | zero =>
    intro h l h' vs hd
    cases l with
    | nil =>
      simp only [deepcopyVals] at hd
      injection hd with hd2
      injection hd2 with hh hv
      subst hh
      subst hv
      exact ⟨⟨[], by simp⟩, by simp, by simp⟩
    | cons v rest =>
      cases v <;> cases hd
  | succ fuel ih =>
    intro h l h' vs hd
    cases l with
    | nil =>
      simp only [deepcopyVals] at hd
      injection hd with hd2
      injection hd2 with hh hv
      subst hh
      subst hv
      exact ⟨⟨[], by simp⟩, by simp, by simp⟩
    | cons v rest =>
      cases v with
      | prim j =>
        simp only [deepcopyVals] at hd
        cases hrec : deepcopyVals fuel h rest with
        | none => rw [hrec] at hd; cases hd
        | some p =>
          obtain ⟨h1, vs1⟩ := p
          rw [hrec] at hd
          injection hd with hd2
          injection hd2 with hh hv
          subst hh
          subst hv
          obtain ⟨hext, hvs, hobj⟩ := ih h rest h1 vs1 hrec
          refine ⟨hext, ?_, hobj⟩
          intro w hw
          rcases List.mem_cons.mp hw with hw | hw
          · subst hw; trivial
          · exact hvs w hw
      | ref a =>
        simp only [deepcopyVals] at hd
        cases hga : h[a]? with
        | none =>
          simp only [hga] at hd
          cases hd
        | some o =>
          simp only [hga] at hd
          cases hrec1 : deepcopyVals fuel h (o.map Prod.snd) with
          | none =>
            simp only [hrec1] at hd
            cases hd
          | some p1 =>
            obtain ⟨h1, ws⟩ := p1
            simp only [hrec1] at hd
            cases hrec2 : deepcopyVals fuel (h1 ++ [(o.map Prod.fst).zip ws]) rest with
            | none =>
              simp only [hrec2] at hd
              cases hd
            | some p2 =>
              obtain ⟨h2, vs2⟩ := p2
              simp only [hrec2] at hd
              injection hd with hd2
              injection hd2 with hh hv
              subst hh
              subst hv
              obtain ⟨⟨ext1, hext1⟩, hws, hobj1⟩ := ih h (o.map Prod.snd) h1 ws hrec1
              obtain ⟨⟨ext2, hext2⟩, hvs2, hobj2⟩ :=
                ih (h1 ++ [(o.map Prod.fst).zip ws]) rest h2 vs2 hrec2
              have hlen1 : h.length ≤ h1.length := by rw [hext1]; simp
              have hlen2 : h.length ≤ (h1 ++ [(o.map Prod.fst).zip ws]).length := by
                simp [List.length_append]
                omega
              have hzip : objGE h.length ((o.map Prod.fst).zip ws) := by
                intro p hp
                obtain ⟨pk, pv⟩ := p
                exact hws pv (List.of_mem_zip hp).2
              have hh2 : h2 = h ++ (ext1 ++ [(o.map Prod.fst).zip ws] ++ ext2) := by
                rw [hext2, hext1]
                simp [List.append_assoc]
              refine ⟨⟨ext1 ++ [(o.map Prod.fst).zip ws] ++ ext2, hh2⟩, ?_, ?_⟩
              · intro w hw
                rcases List.mem_cons.mp hw with hw | hw
                · subst hw
                  exact hlen1
                · exact valGE_mono hlen2 w (hvs2 w hw)
              · intro ob hob
                rw [hh2, List.drop_left] at hob
                rcases List.mem_append.mp hob with hob | hob
                · rcases List.mem_append.mp hob with hob | hob
                  · apply hobj1
                    rw [hext1, List.drop_left]
                    exact hob
                  · rcases List.mem_singleton.mp hob with rfl
                    exact hzip
                · have := hobj2 ob (by rw [hext2, List.drop_left]; exact hob)
                  exact objGE_mono hlen2 ob this

/-- Mutating a field of the object at address `b` leaves every other address
unchanged. -/
theorem setField_frame (h : Heap) (b : Nat) (k : List Char) (v : Val) (a : Nat)
    (hab : a ≠ b) : (setField h b k v)[a]? = h[a]? := by
  unfold setField
  cases hb : h[b]? with
  | none => rfl
  | some o => exact List.getElem?_set_ne (fun he => hab he.symm)

/-- The heap-level `BLUR_KEYS` loop mutates only the style object's address. -/
theorem applyBlurKeysHeap_frame (table : List (List Char × List Char)) :
    ∀ (h : Heap) (s a : Nat), a ≠ s →
    (applyBlurKeysHeap table h s)[a]? = h[a]? := by
  induction table with
  | nil => intro h s a _; rfl
  | cons kl tbl ih =>
    intro h s a has
    simp only [applyBlurKeysHeap]
    cases hg : getField h s kl.1 with
    | none => exact ih h s a has
    | some ov => exact (ih _ s a has).trans (setField_frame h s kl.1 (valAddAlpha ov kl.2) a has)

/-- Setting one field does not change the reading of a different field of the
same object. -/
theorem getField_setField_ne (h : Heap) (b : Nat) (k k2 : List Char) (v : Val)
    (hk : ¬k = k2) : getField (setField h b k v) b k2 = getField h b k2 := by
  unfold getField setField
  cases hb : h[b]? with
  | none => rw [hb]
  | some o =>
    obtain ⟨hblt, _⟩ := List.getElem?_eq_some_iff.mp hb
    simp only [hb]
    rw [List.getElem?_set_self hblt]
    simp [dictGet_dictSet, hk]

/-- Claim C8: `create_blurred_variant` returns a structurally independent
theme — in the heap semantics, every object of the original heap (in
particular the input theme and its nested style dict) is untouched by the
call, because all mutations target the fresh addresses allocated by
`copy.deepcopy`. -/
theorem claim_C8 (h : Heap) (t : Nat) (h' : Heap) (t' : Nat)
    (hc : create_blurred_variant_heap h t = some (h', t')) :
    ∀ a, a < h.length → h'[a]? = h[a]? := by
  intro a ha
  unfold create_blurred_variant_heap at hc
  cases hdc : deepcopyVals (2 * heapFuel h + 2) h [.ref t] with
  | none => simp only [hdc] at hc; cases hc
  | some p =>
    obtain ⟨h1, vs⟩ := p
    simp only [hdc] at hc
    obtain ⟨⟨ext, hext⟩, hvs, hobj⟩ :=
      deepcopyVals_frame (2 * heapFuel h + 2) h [.ref t] h1 vs hdc
    match vs, hc with
    | [.ref t0], hc =>
      have ht0 : h.length ≤ t0 := hvs (.ref t0) (by simp)
      cases hnm : getField h1 t (S "name") with
      | none => simp only [hnm] at hc; cases hc
      | some nv =>
        simp only [hnm] at hc
        match nv, hc with
        | .prim (.str n), hc =>
          cases hstf : getField (setField h1 t0 (S "name")
              (.prim (.str (n ++ S " - blurred")))) t0 (S "style") with
          | none => simp only [hstf] at hc; cases hc
          | some sv =>
            simp only [hstf] at hc
            match sv, hc with
            | .ref s', hc =>
              have hs' : h.length ≤ s' := by
                rw [getField_setField_ne h1 t0 (S "name") (S "style") _ (by decide)] at hstf
                unfold getField at hstf
                cases hto : h1[t0]? with
                | none => rw [hto] at hstf; cases hstf
                | some ob =>
                  rw [hto] at hstf
                  have hmem : ob ∈ h1.drop h.length := by
                    have : (h1.drop h.length)[t0 - h.length]? = some ob := by
                      rw [List.getElem?_drop]
                      rw [show h.length + (t0 - h.length) = t0 by omega]
                      exact hto
                    exact List.getElem?_mem this
                  obtain ⟨q, hq, hq2⟩ := dictGet_mem ob (S "style") (.ref s') hstf
                  have := hobj ob hmem q hq
                  rw [hq2] at this
                  exact this
              injection hc with hcp
              obtain ⟨hc1, hc2⟩ := Prod.mk.inj hcp
              rw [← hc1]
              rw [applyBlurKeysHeap_frame BLUR_KEYS _ s' a (by omega),
                  setField_frame _ s' _ _ a (by omega),
                  setField_frame _ t0 _ _ a (by omega),
                  hext, List.getElem?_append]
              rw [if_pos ha]

/-- Witness for claim C8 on a concrete two-object heap: the call yields
`heap0Result` and addresses 0 and 1 still hold their original objects. -/
theorem claim_C8_witness :
    heap0Result[0]? = heap0[0]? ∧ heap0Result[1]? = heap0[1]? :=
  ⟨claim_C8 heap0 1 heap0Result 3 (by decide) 0 (by decide),
   claim_C8 heap0 1 heap0Result 3 (by decide) 1 (by decide)⟩
